import Mathlib

/-!
Verification of the gparse parser-combinator engine (src/src/index.ts).

JavaScript strings are sequences of UTF-16 code units indexed by integers; we
model them as lists of characters (`Str`) indexed by naturals, which matches
the code-unit indexing used throughout the source.  Token parsers wrap a pure
state transformer behind a memo table keyed by state identity; since the
transformers embedded here are pure functions, the memo wrapper
(TokenParser.constructor, lines 480-497) is observationally transparent and
token combinators are modelled by their raw transformers.  Unbounded `while`
loops of the source (`many`, `until`) are embedded with an explicit fuel
parameter; `none` means the loop did not finish within the given fuel.
-/

/-- Model of a JavaScript string: a sequence of code units. -/
abbrev Str := List Char

/-- Model of class ParseResult (lines 202-259): a successful parse state with
its target, index, appended token list and semantic value. -/
structure ParseResultM (D : Type) where
  target : Str
  index : Nat
  result : List Str
  data : D
deriving DecidableEq

/-- Model of class ParseError (lines 302-356): a failed parse state with its
target, index, token list and semantic error value. -/
structure ParseErrorM (E : Type) where
  target : Str
  index : Nat
  result : List Str
  error : E
deriving DecidableEq

/-- Model of the tagged union ParseState (line 394). -/
inductive ParseStateM (D E : Type) where
  | ok : ParseResultM D → ParseStateM D E
  | err : ParseErrorM E → ParseStateM D E
deriving DecidableEq

/-- The common target field of a ParseState. -/
def stTarget {D E : Type} : ParseStateM D E → Str
  | .ok r => r.target
  | .err e => e.target

/-- The common index field of a ParseState. -/
def stIndex {D E : Type} : ParseStateM D E → Nat
  | .ok r => r.index
  | .err e => e.index

/-- The common result (token list) field of a ParseState. -/
def stResult {D E : Type} : ParseStateM D E → List Str
  | .ok r => r.result
  | .err e => e.result

/-- The isError discriminator of a ParseState (lines 206, 306). -/
def stIsError {D E : Type} : ParseStateM D E → Bool
  | .ok _ => false
  | .err _ => true

/-- JavaScript truthiness of the optional `newResult` string parameter of
updateParseResult: `undefined` (here `none`) and the empty string are falsy,
every other string is truthy. -/
def jsTruthyStr : Option Str → Bool
  | none => false
  | some s => !s.isEmpty

/-- Model of updateParseResult (lines 276-288): build a new ParseResult from
an old state with a new index and data, appending `newResult` as a token only
when it is truthy (so the empty string is silently dropped, exactly as the
conditional expression `(newResult) ? [...old.result, newResult] : old.result`
does in the source). -/
def updateParseResult {D E : Type} (old : ParseStateM D E) (index : Nat) (data : D)
    (newResult : Option Str) : ParseStateM D E :=
  .ok ⟨stTarget old, index,
    if jsTruthyStr newResult then stResult old ++ [newResult.getD []] else stResult old,
    data⟩

/-- Model of updateParseError (lines 371-381): build a new ParseError from an
old state, keeping target, index and result and installing a new error value. -/
def updateParseError {D E : Type} (old : ParseStateM D E) (error : E) : ParseStateM D E :=
  .err ⟨stTarget old, stIndex old, stResult old, error⟩

/-- The type of a raw token state transformer (ParseStateTransformer, line 433). -/
abbrev TransformerM (D E : Type) := ParseStateM D E → ParseStateM D E

/-- Model of the error-production callback type ParseErrorProduction (line 415). -/
abbrev ErrProd (E : Type) := Str → Nat → E

/-- Model of the transformer of `str` (lines 902-921): propagate errors, fail
with the EOF production at or past the end of the target, fail with the match
production when the remaining input does not start with `s`, and otherwise
consume `s` and append it as one token. -/
def strT {D E : Type} (s : Str) (EOFError matchError : ErrProd E) : TransformerM D E :=
  fun state =>
    match state with
    | .err e => .err e
    | .ok r =>
      if r.target.length ≤ r.index then
        updateParseError state (EOFError r.target r.index)
      else if !(s.isPrefixOf (r.target.drop r.index)) then
        updateParseError state (matchError r.target r.index)
      else
        updateParseResult state (r.index + s.length) r.data (some s)

/-- Model of the `while (true)` loop of `many` (lines 976-986), with explicit
fuel: apply the parser; stop (returning the previous state) on error; stop
with the new state when the index has reached the end of the target; loop
otherwise.  `none` means the loop did not terminate within `fuel` steps. -/
def manyLoop {D E : Type} (t : TransformerM D E) :
    Nat → ParseStateM D E → Option (ParseStateM D E)
  | 0, _ => none
  | fuel + 1, s =>
    let output := t s
    if stIsError output then some s
    else if (stTarget output).length ≤ stIndex output then some output
    else manyLoop t fuel output

/-- Model of the transformer of `many` (lines 968-990): propagate an error
input, otherwise run the greedy loop. -/
def manyT {D E : Type} (t : TransformerM D E) (fuel : Nat) (state : ParseStateM D E) :
    Option (ParseStateM D E) :=
  if stIsError state then some state else manyLoop t fuel state

/-- Model of the transformer of `many1` (lines 1004-1020): propagate an error
input; otherwise run `many` and, when the outcome is a non-error state whose
result list has length zero, replace it by the `matchError` production applied
at the input state.  Note that the source tests `nextState.result.length === 0`
on the absolute token list, not the number of tokens appended relative to the
input state. -/
def many1T {D E : Type} (t : TransformerM D E) (matchError : ErrProd E) (fuel : Nat)
    (state : ParseStateM D E) : Option (ParseStateM D E) :=
  match state with
  | .err e => some (.err e)
  | .ok r =>
    (manyT t fuel state).map fun nextState =>
      if !(stIsError nextState) && (stResult nextState).length == 0 then
        updateParseError state (matchError r.target r.index)
      else nextState

/-- Model of the transformer of `optional` (lines 1041-1052): propagate an
error input; otherwise apply the parser and fall back to the original state
when it errors. -/
def optionalT {D E : Type} (t : TransformerM D E) : TransformerM D E :=
  fun state =>
    match state with
    | .err e => .err e
    | .ok _ =>
      let nextState := t state
      if stIsError nextState then state else nextState

/-- Model of the `while (true)` loop of `until` together with its epilogue
(lines 1077-1091), with explicit fuel.  `start` is the index recorded before
the loop.  Each round first probes the terminator: on terminator success the
loop breaks and the skipped substring `target.substring(start, index)` is
handed to updateParseResult as the new token (where, per the truthiness check,
a zero-length substring is dropped); at the end of the target the EOF error
production is returned; otherwise the index advances by one character without
appending anything. -/
def untilLoop {D E : Type} (term : TransformerM D E) (EOFError : ErrProd E) (start : Nat) :
    Nat → ParseResultM D → Option (ParseStateM D E)
  | 0, _ => none
  | fuel + 1, r =>
    if !(stIsError (term (.ok r))) then
      some (updateParseResult (.ok r) r.index r.data (some ((r.target.take r.index).drop start)))
    else if r.target.length ≤ r.index then
      some (updateParseError (.ok r) (EOFError r.target r.index))
    else
      untilLoop term EOFError start fuel ⟨r.target, r.index + 1, r.result, r.data⟩

/-- Model of the transformer of `until` (lines 1068-1093): propagate an error
input, otherwise run the skipping loop starting at the current index. -/
def untilT {D E : Type} (term : TransformerM D E) (EOFError : ErrProd E) (fuel : Nat)
    (state : ParseStateM D E) : Option (ParseStateM D E) :=
  match state with
  | .err e => some (.err e)
  | .ok r => untilLoop term EOFError r.index fuel r

/-- Model of the token-layer transformer of `map` (lines 1338-1346): apply the
parser to the input state without any error short-circuit, then rebuild the
outcome with the mapped error value on the error branch and the mapped data
value on the success branch, keeping index and result. -/
def mapT {D E : Type} (t : TransformerM D E) (mdata : ParseResultM D → D)
    (merror : ParseErrorM E → E) : TransformerM D E :=
  fun state =>
    match t state with
    | .err e => updateParseError (.err e) (merror e)
    | .ok r => updateParseResult (.ok r) r.index (mdata r) none

/-- Model of the token-layer transformer of `chain` without an action
(lines 1407-1440 with `action === undefined`): the builder seeds `chains` with
the last parser and wraps it once per remaining parser, so the resulting
transformer applies the parsers left to right, each one to the output of the
previous; no backreference is recorded (line 1433 is guarded on the action
being present). -/
def chainNoActT {D E : Type} : List (TransformerM D E) → TransformerM D E
  | [] => fun state => state
  | [t] => t
  | t :: rest => fun state => chainNoActT rest (t state)

/-- Model of the token-layer transformer of `chain` with an action, for a
one-element parser list (lines 1407-1440 with `parsers = [p]`): the builder
loop runs exactly once (i = 0), producing a transformer that applies `p` and
hands its output to the action step (lines 1413-1425).  The action step
propagates errors unchanged and otherwise reads `data[0]` from the very state
it receives — the backreference written at line 1434 is looked up only for the
steps before it and is never read for a single parser — and replaces the data
by the action of the one-element data vector. -/
def chainActOneT {D E : Type} (t : TransformerM D E) (action : List D → D) :
    TransformerM D E :=
  fun state =>
    let nextState := t state
    match nextState with
    | .err e => .err e
    | .ok r => updateParseResult (.ok r) r.index (action [r.data]) none

/-- Total length of the concatenation of the result tokens, modelling
`result.join('').length` in the constructor guards (lines 220, 314). -/
def joinLen (result : List Str) : Nat := (result.map List.length).sum

/-- Model of the ParseResult constructor (lines 211-227).  The raw index
argument is an integer, since the guards must also account for negative
indices; a RangeError thrown by the source is modelled as `Except.error` with
the message text. -/
def mkParseResult {D : Type} (target : Str) (index : Int) (result : List Str) (data : D) :
    Except Str (ParseResultM D) :=
  if (target.length : Int) < index then
    .error "Index specified is greater than the target length.".toList
  else if (index : Int) < (joinLen result : Int) then
    .error "Result is larger than index specified.".toList
  else
    .ok ⟨target, index.toNat, result, data⟩

/-- Model of the ParseError constructor (lines 311-324), with the same guards
as the ParseResult constructor. -/
def mkParseError {E : Type} (target : Str) (index : Int) (result : List Str) (error : E) :
    Except Str (ParseErrorM E) :=
  if (target.length : Int) < index then
    .error "Index specified is greater than the target length.".toList
  else if (index : Int) < (joinLen result : Int) then
    .error "Result is larger than index specified.".toList
  else
    .ok ⟨target, index.toNat, result, error⟩

/-- Comparator used by the eager driver sort (line 842): JavaScript
`(a, b) => a.index - b.index` sorts ascending by index. -/
def runLe {D E : Type} (a b : ParseStateM D E) : Bool := stIndex a ≤ stIndex b

/-- Model of the eager-run postprocessing of SymbolParser.run (lines 842-846):
sort the collected states ascending by index (JavaScript Array.sort is
stable; we use mergeSort), read the maximum index off the last element, keep
the states at the maximum index, and return the non-error ones among them
when any exist, the whole maximal set otherwise.  On an empty collection the
source dereferences `undefined` (line 843), modelled as `none`. -/
def runPostprocess {D E : Type} (results : List (ParseStateM D E)) :
    Option (List (ParseStateM D E)) :=
  let sorted := results.mergeSort runLe
  match sorted.getLast? with
  | none => none
  | some last =>
    let maxIndex := stIndex last
    let maxResults := sorted.filter fun state => maxIndex ≤ stIndex state
    let nonErrorResults := maxResults.filter fun state => !(stIsError state)
    some (if 0 < nonErrorResults.length then nonErrorResults else maxResults)

/-- JavaScript truthiness of an array value: every object, the empty array
included, is truthy.  This models the enqueue guard of the symbol-combinator
wrapped transformer (line 714), which tests the array returned by
`parseStack.filter(...)` itself instead of its length, and therefore always
takes the push branch. -/
def jsTruthyArr {A : Type} (_ : List A) : Bool := true

/-- Abstract configuration of the GLL driver state relevant to stack
deduplication, for one run over a fixed target (so the target-change flush of
lines 696-699 never fires: every state built by the combinators keeps the
target of the initial state).  Symbol-combinator instances are numbered; for
instance `i`, `memoKeys i` is the set of state identities present in its
memotable.  `stack` holds the pending work items as (instance, state identity)
pairs — an item pushed at line 715 carries the raw transformer of exactly one
instance, so the pair (transformer, state.identity) compared by the filter at
line 714 is modelled by the pair (instance number, identity).  `pushed` records
every pair ever pushed during the run.  The single item seeded by the driver
(lines 802-808) carries the wrapped transformer of the root parser, which is a
different function from every raw transformer and is pushed exactly once, so it
cannot take part in a duplicate pair and is left out of the model. -/
structure SymConfig where
  memoKeys : Nat → List Str
  stack : List (Nat × Str)
  pushed : List (Nat × Str)

/-- The configuration at the start of a run: all memotables empty, no pending
raw work item, nothing pushed yet. -/
def symInit : SymConfig := ⟨fun _ => [], [], []⟩

/-- Effect of the miss branch of the wrapped transformer (lines 703-732) on a
configuration: a fresh memotable entry is created for the state identity
(lines 704-709) and then the work item is pushed — the guard of line 714
tests the truthiness of the filtered array of pending items with the same
transformer and the same state identity, which is always truthy. -/
def symMiss (c : SymConfig) (i : Nat) (ident : Str) : SymConfig :=
  let memoKeys2 := fun j => if j = i then ident :: c.memoKeys i else c.memoKeys j
  let pending := c.stack.filter fun item => item.1 == i && item.2 == ident
  if jsTruthyArr pending then
    ⟨memoKeys2, (i, ident) :: c.stack, (i, ident) :: c.pushed⟩
  else
    ⟨memoKeys2, c.stack, c.pushed⟩

/-- One step of the GLL driver, abstracting over what the popped work items
and the continuations do: any interleaving of wrapped-transformer calls
(lines 695-734) and pops by the generator loop (line 811) is allowed.  A hit
(lines 700-702) only appends a continuation to the entry and replays stored
results, leaving memo keys and stack unchanged; a miss creates the entry and
pushes; a pop removes the top work item.  Publications by the inner
continuation (lines 718-730) only add result states under an existing entry
and so do not change the configuration. -/
inductive SymStep : SymConfig → SymConfig → Prop
  | hit (c : SymConfig) (i : Nat) (ident : Str) (h : ident ∈ c.memoKeys i) : SymStep c c
  | miss (c : SymConfig) (i : Nat) (ident : Str) (h : ident ∉ c.memoKeys i) :
      SymStep c (symMiss c i ident)
  | pop (c : SymConfig) (item : Nat × Str) (rest : List (Nat × Str))
      (h : c.stack = item :: rest) : SymStep c ⟨c.memoKeys, rest, c.pushed⟩

/-- The configurations reachable during a single run. -/
inductive SymReach : SymConfig → Prop
  | init : SymReach symInit
  | step {c c2 : SymConfig} : SymReach c → SymStep c c2 → SymReach c2

/-- The inductive invariant of the stack discipline: every pushed pair has its
identity in the memotable of its instance, no pair is pushed twice, and every
pending item was pushed. -/
def SymInv (c : SymConfig) : Prop :=
  (∀ p ∈ c.pushed, p.2 ∈ c.memoKeys p.1) ∧ c.pushed.Nodup ∧ ∀ p ∈ c.stack, p ∈ c.pushed

theorem symInv_init : SymInv symInit := by
  refine ⟨?_, List.nodup_nil, ?_⟩ <;> intro p hp <;> simp [symInit] at hp

theorem symInv_step {c c2 : SymConfig} (hinv : SymInv c) (hstep : SymStep c c2) :
    SymInv c2 := by
  obtain ⟨hmemo, hnodup, hsub⟩ := hinv
  cases hstep with
  | hit i ident h => exact ⟨hmemo, hnodup, hsub⟩
  | miss i ident h =>
    simp only [symMiss, jsTruthyArr, if_true]
    refine ⟨?_, ?_, ?_⟩
    · intro p hp
      rcases List.mem_cons.mp hp with hp | hp
      · subst hp; simp
      · have hmem := hmemo p hp
        dsimp only
        by_cases hpi : p.1 = i
        · rw [if_pos hpi]
          exact List.mem_cons_of_mem _ (hpi ▸ hmem)
        · rw [if_neg hpi]
          exact hmem
    · refine List.nodup_cons.mpr ⟨?_, hnodup⟩
      intro hmem
      exact h (hmemo (i, ident) hmem)
    · intro p hp
      rcases List.mem_cons.mp hp with hp | hp
      · subst hp; exact List.mem_cons_self _ _
      · exact List.mem_cons_of_mem _ (hsub p hp)
  | pop item rest h =>
    refine ⟨hmemo, hnodup, ?_⟩
    intro p hp
    exact hsub p (h ▸ List.mem_cons_of_mem _ hp)

theorem symInv_reach {c : SymConfig} (hreach : SymReach c) : SymInv c := by
  induction hreach with
  | init => exact symInv_init
  | step _ hstep ih => exact symInv_step ih hstep

/-- Model of the state identity getter (ParseResult.identity, lines 256-258,
and ParseError.identity, lines 353-355): the string `target_index`, with
`_semanticIdentity` appended only when the identity of the carried semantic
value (of the data on a result, of the error value on an error) is non-empty.
`idD` and `idE` are the identity getters of the semantic types. -/
def stIdentity {D E : Type} (idD : D → Str) (idE : E → Str) : ParseStateM D E → Str
  | .ok r => r.target ++ ('_' :: (Nat.repr r.index).toList) ++
      (if 0 < (idD r.data).length then '_' :: idD r.data else [])
  | .err e => e.target ++ ('_' :: (Nat.repr e.index).toList) ++
      (if 0 < (idE e.error).length then '_' :: idE e.error else [])

/-- Defunctionalised continuation of the symbol layer.  `collect` is the
result-collecting continuation installed by the generator (lines 805-807);
`publisher inst ident` is the inner continuation pushed with a work item at
lines 718-730, which publishes results into the memo entry of instance `inst`
under input identity `ident`. -/
inductive ContM where
  | collect
  | publisher (inst : Nat) (ident : Str)
deriving DecidableEq

/-- Memotable entry of a symbol combinator (lines 677-680): the distinct
result states keyed by their identity in insertion order, and the subscribed
continuations. -/
structure MemoEntryM (D E : Type) where
  results : List (Str × ParseStateM D E)
  conts : List ContM
deriving DecidableEq

/-- Identity of the transformer function stored in a work item: the wrapped
transformer of an instance (what the generator seeds, line 803) or the raw
transformer of an instance (what the miss branch pushes, line 716).  The two
are different JavaScript closures, so they are distinguished here. -/
inductive StackTagM where
  | wrapped (inst : Nat)
  | raw (inst : Nat)
deriving DecidableEq

/-- The mutable state of one generator run: the memotables of all symbol
combinator instances keyed by (instance, input state identity), the parse
stack of deferred work items (JavaScript pushes and pops at the array end;
modelled at the list head, which is the same LIFO discipline), and the
collected results in publication order. -/
structure MachineM (D E : Type) where
  memos : List ((Nat × Str) × MemoEntryM D E)
  stack : List (StackTagM × ParseStateM D E × ContM)
  results : List (ParseStateM D E)
deriving DecidableEq

/-- The raw transformer body of a symbol combinator instance:
a promoted token parser (toSymbol, lines 772-778), an alternatives
combinator over child instances (lines 1536-1548), or the empty parser
(lines 1555-1557). -/
inductive SymDefM (D E : Type) where
  | tok (t : TransformerM D E)
  | alts (children : List Nat)
  | emptyP

/-- Lookup in an association list modelling Map.get. -/
def getEntryList {D E : Type} :
    List ((Nat × Str) × MemoEntryM D E) → Nat × Str → Option (MemoEntryM D E)
  | [], _ => none
  | (k0, e0) :: rest, key => if k0 = key then some e0 else getEntryList rest key

/-- Update in an association list modelling Map.set: replace in place when the
key is present, append at the end otherwise (JavaScript Map preserves
insertion order). -/
def setEntryList {D E : Type} :
    List ((Nat × Str) × MemoEntryM D E) → Nat × Str → MemoEntryM D E →
      List ((Nat × Str) × MemoEntryM D E)
  | [], key, e => [(key, e)]
  | (k0, e0) :: rest, key, e =>
    if k0 = key then (key, e) :: rest else (k0, e0) :: setEntryList rest key e

/-- Lookup of a result state by identity inside a memo entry (Map.get on the
results map, line 726). -/
def getResult {D E : Type} : List (Str × ParseStateM D E) → Str → Option (ParseStateM D E)
  | [], _ => none
  | (k0, s0) :: rest, key => if k0 = key then some s0 else getResult rest key

/-- Model of the publisher body (lines 718-730) acting on the memo entry of
its (instance, identity) key.  First the ambiguity-breadth guard: when
MAX_AMBIGUITY_BREADTH is not Infinity (modelled as `some maxB`) and the number
of results already retained in the entry whose index equals the length of
their target exceeds `maxB`, a fatal Error is thrown (lines 720-725).  Then,
when the identity of the incoming result state is not yet among the retained
results, the state is stored and the subscribed continuations are returned for
replay; a result already known is dropped silently (lines 726-729). -/
def publishStep {D E : Type} (maxB : Option Nat) (idOf : ParseStateM D E → Str)
    (entry : MemoEntryM D E) (resultState : ParseStateM D E) :
    Except Str (MemoEntryM D E × List ContM) :=
  let breadthExceeded : Bool :=
    match maxB with
    | none => false
    | some mb =>
      decide (mb < (entry.results.filter fun p =>
        stIndex p.2 == (stTarget p.2).length).length)
  if breadthExceeded then
    .error "Maximum ambiguity breadth reached.".toList
  else
    match getResult entry.results (idOf resultState) with
    | some _ => .ok (entry, [])
    | none =>
      .ok (⟨entry.results ++ [(idOf resultState, resultState)], entry.conts⟩, entry.conts)

/-- A unit of work for the machine interpreter: a call of the wrapped
transformer of an instance (lines 695-734), a run of the raw body of an
instance (what executing a popped raw work item does), an invocation of one
continuation with one state, the replay of a list of stored results to one
continuation (the forEach of line 702), the fanout of one result state to a
list of continuations (the forEach of line 728), and the dispatch of an
alternatives body over its children (lines 1543-1546). -/
inductive TaskM (D E : Type) where
  | wrappedCall (i : Nat) (s : ParseStateM D E) (k : ContM)
  | rawCall (i : Nat) (s : ParseStateM D E) (k : ContM)
  | contCall (k : ContM) (s : ParseStateM D E)
  | replayCall (k : ContM) (ss : List (ParseStateM D E))
  | fanoutCall (ks : List ContM) (s : ParseStateM D E)
  | altsCall (cs : List Nat) (s : ParseStateM D E) (k : ContM)

/-- Small-step interpreter of the symbol layer over the grammar `g`, with
explicit fuel (every nested semantic call consumes one unit).  The branches
model: the wrapped transformer hit branch (lines 700-702: subscribe the
continuation, replay every stored result to it) and miss branch
(lines 703-732: create the entry with the continuation subscribed, then push
the raw work item — the guard of line 714 tests the truthiness of a filtered
array, which is always truthy); the raw bodies (toSymbol calls the token
transformer synchronously and hands its outcome to the continuation,
lines 775-777; alternatives forwards an error input to the continuation and
dispatches every child wrapped transformer on a result input,
lines 1539-1547; empty hands the state itself to the continuation,
line 1555); the collect continuation appending to the collected results
(lines 805-807); and the publisher continuation (lines 718-730) via
`publishStep` followed by the fanout to the subscribed continuations. -/
def execTask {D E : Type} (g : Nat → SymDefM D E) (idOf : ParseStateM D E → Str)
    (maxB : Option Nat) :
    Nat → TaskM D E → MachineM D E → Except Str (MachineM D E)
  | 0, _, _ => .error "Fuel exhausted.".toList
  | fuel + 1, task, m =>
    match task with
    | .wrappedCall i s k =>
      match getEntryList m.memos (i, idOf s) with
      | some entry =>
        execTask g idOf maxB fuel
          (.replayCall k (entry.results.map fun p => p.2))
          ⟨setEntryList m.memos (i, idOf s) ⟨entry.results, entry.conts ++ [k]⟩,
            m.stack, m.results⟩
      | none =>
        let m2 : MachineM D E :=
          ⟨setEntryList m.memos (i, idOf s) ⟨[], [k]⟩, m.stack, m.results⟩
        let pending := m2.stack.filter fun item =>
          item.1 == StackTagM.raw i && idOf item.2.1 == idOf s
        if jsTruthyArr pending then
          .ok ⟨m2.memos, (StackTagM.raw i, s, ContM.publisher i (idOf s)) :: m2.stack,
            m2.results⟩
        else .ok m2
    | .rawCall i s k =>
      match g i with
      | .tok t => execTask g idOf maxB fuel (.contCall k (t s)) m
      | .emptyP => execTask g idOf maxB fuel (.contCall k s) m
      | .alts children =>
        match s with
        | .err e => execTask g idOf maxB fuel (.contCall k (.err e)) m
        | .ok r => execTask g idOf maxB fuel (.altsCall children (.ok r) k) m
    | .contCall .collect s => .ok ⟨m.memos, m.stack, m.results ++ [s]⟩
    | .contCall (.publisher i ident) s =>
      match getEntryList m.memos (i, ident) with
      | none => .error "Missing memo entry.".toList
      | some entry =>
        match publishStep maxB idOf entry s with
        | .error msg => .error msg
        | .ok (entry2, ks) =>
          execTask g idOf maxB fuel (.fanoutCall ks s)
            ⟨setEntryList m.memos (i, ident) entry2, m.stack, m.results⟩
    | .replayCall _ [] => .ok m
    | .replayCall k (s :: ss) =>
      match execTask g idOf maxB fuel (.contCall k s) m with
      | .error msg => .error msg
      | .ok m2 => execTask g idOf maxB fuel (.replayCall k ss) m2
    | .fanoutCall [] _ => .ok m
    | .fanoutCall (k :: ks) s =>
      match execTask g idOf maxB fuel (.contCall k s) m with
      | .error msg => .error msg
      | .ok m2 => execTask g idOf maxB fuel (.fanoutCall ks s) m2
    | .altsCall [] _ _ => .ok m
    | .altsCall (c :: cs) s k =>
      match execTask g idOf maxB fuel (.wrappedCall c s k) m with
      | .error msg => .error msg
      | .ok m2 => execTask g idOf maxB fuel (.altsCall cs s k) m2

/-- The generator driver loop (lines 809-818) drained to completion: pop the
top work item and execute it until the stack empties. -/
def drainLoop {D E : Type} (g : Nat → SymDefM D E) (idOf : ParseStateM D E → Str)
    (maxB : Option Nat) : Nat → MachineM D E → Except Str (MachineM D E)
  | 0, _ => .error "Fuel exhausted.".toList
  | fuel + 1, m =>
    match m.stack with
    | [] => .ok m
    | (tag, s, k) :: rest =>
      let m2 : MachineM D E := ⟨m.memos, rest, m.results⟩
      match tag with
      | .wrapped i =>
        match execTask g idOf maxB fuel (.wrappedCall i s k) m2 with
        | .error msg => .error msg
        | .ok m3 => drainLoop g idOf maxB fuel m3
      | .raw i =>
        match execTask g idOf maxB fuel (.rawCall i s k) m2 with
        | .error msg => .error msg
        | .ok m3 => drainLoop g idOf maxB fuel m3

/-- Model of a full generator run (lines 794-820) of a freshly constructed
root parser: the stack is seeded with the wrapped transformer of the root
instance, a fresh initial ParseResult (line 804) and the collecting
continuation, then the drain loop runs.  The returned machine lists the
collected states in publication order in its `results` field. -/
def symGenerateM {D E : Type} (g : Nat → SymDefM D E) (idOf : ParseStateM D E → Str)
    (maxB : Option Nat) (root : Nat) (fuel : Nat) (target : Str) (data : D) (index : Nat) :
    Except Str (MachineM D E) :=
  drainLoop g idOf maxB fuel
    ⟨[], [(StackTagM.wrapped root, .ok ⟨target, index, [], data⟩, ContM.collect)], []⟩

/-- Model of SymbolParser.run (lines 833-847): drain the generator, then apply
the eager postprocessing `runPostprocess`; the `undefined` dereference on an
empty collection (line 843) is modelled as a TypeError fault. -/
def symRunE {D E : Type} (g : Nat → SymDefM D E) (idOf : ParseStateM D E → Str)
    (maxB : Option Nat) (root : Nat) (fuel : Nat) (target : Str) (data : D) (index : Nat) :
    Except Str (List (ParseStateM D E)) :=
  match symGenerateM g idOf maxB root fuel target data index with
  | .error msg => .error msg
  | .ok m =>
    match runPostprocess m.results with
    | none => .error "TypeError: cannot read property of undefined.".toList
    | some out => .ok out

/-- Model of TokenParser.run (lines 511-517): apply the transformer to a fresh
initial ParseResult and return the single outcome in a one-element array. -/
def tokenRun {D E : Type} (t : TransformerM D E) (target : Str) (data : D) (index : Nat) :
    List (ParseStateM D E) :=
  [t (.ok ⟨target, index, [], data⟩)]

/-- The grammar consisting of a single promoted token parser: the model of
`SymbolParser.toSymbol(p)` (lines 772-778) as a one-instance grammar. -/
def toSymbolG {D E : Type} (t : TransformerM D E) : Nat → SymDefM D E :=
  fun _ => .tok t

/-- Token transformer `map(str("a"), _ ↦ "x", id)`: a parser matching the one
character "a" whose semantic data becomes the identity string "x" (semantic
values are modelled as the identity strings themselves, the Dynamic policy). -/
def tokX : TransformerM Str Str :=
  mapT (strT ['a'] (fun _ _ => "E".toList) (fun _ _ => "M".toList))
    (fun _ => "x".toList) (fun e => e.error)

/-- Token transformer `map(str("a"), _ ↦ "y", id)`, as tokX but with semantic
identity "y". -/
def tokY : TransformerM Str Str :=
  mapT (strT ['a'] (fun _ _ => "E".toList) (fun _ _ => "M".toList))
    (fun _ => "y".toList) (fun e => e.error)

/-- The essentially ambiguous grammar
`alternatives([toSymbol(tokX), toSymbol(tokY)])`: instance 0 is the
alternatives combinator over the promoted token parsers at instances 1 and 2,
whose two full-input parses of "a" carry the distinct identities "x" and "y". -/
def ambG : Nat → SymDefM Str Str
  | 0 => .alts [1, 2]
  | 1 => .tok tokX
  | _ => .tok tokY

/-- The state identity getter for Str-valued semantics: the semantic value is
its own identity string. -/
def idStr : ParseStateM Str Str → Str := stIdentity (fun d => d) (fun e => e)

theorem strT_success_advances {D E : Type} (s : Str) (hs : s ≠ [])
    (EOFError matchError : ErrProd E) (st : ParseStateM D E)
    (h : stIsError (strT (D := D) s EOFError matchError st) = false) :
    stIndex st < stIndex (strT (D := D) s EOFError matchError st) ∧
      stTarget (strT (D := D) s EOFError matchError st) = stTarget st := by
  cases st with
  | err e => simp [strT, stIsError] at h
  | ok r =>
    simp only [strT] at h ⊢
    by_cases h1 : r.target.length ≤ r.index
    · simp [h1, updateParseError, stIsError] at h
    · simp only [h1, if_false] at h ⊢
      by_cases h2 : s.isPrefixOf (r.target.drop r.index)
      · simp only [h2, Bool.not_true, Bool.false_eq_true, if_false,
          updateParseResult, stIndex, stTarget]
        have hpos : 0 < s.length := List.length_pos.mpr hs
        exact ⟨by omega, trivial⟩
      · simp [h2, updateParseError, stIsError] at h

theorem manyLoop_isSome_of_advancing {D E : Type} (t : TransformerM D E)
    (hadv : ∀ s2, stIsError (t s2) = false →
      stIndex s2 < stIndex (t s2) ∧ stTarget (t s2) = stTarget s2) :
    ∀ (fuel : Nat) (s : ParseStateM D E),
      (stTarget s).length - stIndex s < fuel → (manyLoop t fuel s).isSome = true := by
  intro fuel
  induction fuel with
  | zero => intro s h; exact absurd h (by omega)
  | succ n ih =>
    intro s h
    simp only [manyLoop]
    by_cases herr : stIsError (t s) = true
    · simp [herr]
    · have herr2 : stIsError (t s) = false := by
        cases hx : stIsError (t s) with
        | true => exact absurd hx herr
        | false => rfl
      obtain ⟨hlt, htg⟩ := hadv s herr2
      simp only [herr2, Bool.false_eq_true, if_false]
      by_cases hend : (stTarget (t s)).length ≤ stIndex (t s)
      · simp [hend]
      · simp only [hend, if_false]
        refine ih (t s) ?_
        rw [htg] at hend ⊢
        omega

/-- C9: termination of `many`.  First part: for every parser whose transformer
strictly increases the index and preserves the target on every success, the
`many` loop finishes within `len(target) + 1` rounds on every input state, so
`many(p)` terminates.  Second part: for the library parser
`optional(str("z"))` — which succeeds without consuming input whenever
`str("z")` fails, returning the very same state — the `many` loop never
finishes on the non-error state at index 0 of target `"a"`, whatever fuel it
is given: `many` of a non-consuming parser does not terminate. -/
theorem c9_many_termination :
    (∀ (D E : Type) (t : TransformerM D E),
      (∀ s2, stIsError (t s2) = false →
        stIndex s2 < stIndex (t s2) ∧ stTarget (t s2) = stTarget s2) →
      ∀ s : ParseStateM D E, (manyT t ((stTarget s).length + 1) s).isSome = true) ∧
    (∀ fuel : Nat,
      manyT (optionalT (strT ['z'] (fun _ _ => ()) (fun _ _ => ())))
        fuel (.ok ⟨['a'], 0, [], ()⟩) = none) := by
  constructor
  · intro D E t hadv s
    by_cases herr : stIsError s = true
    · simp [manyT, herr]
    · simp only [manyT, herr, if_false]
      exact manyLoop_isSome_of_advancing t hadv _ s (by omega)
  · intro fuel
    have hstep : optionalT (strT ['z'] (fun _ _ => ()) (fun _ _ => ()))
        (.ok ⟨['a'], 0, [], ()⟩) = .ok ⟨['a'], 0, [], ()⟩ := by decide
    have hloop : ∀ n, manyLoop (optionalT (strT ['z'] (fun _ _ => ()) (fun _ _ => ())))
        n (.ok ⟨['a'], 0, [], ()⟩) = none := by
      intro n
      induction n with
      | zero => rfl
      | succ n2 ih =>
        simp only [manyLoop, hstep, stIsError, stTarget, stIndex]
        simpa using ih
    simp only [manyT, stIsError, Bool.false_eq_true, if_false]
    exact hloop fuel

/-- Witness for c9_many_termination: its first part applied to the library
parser `str("a")`, which strictly advances the index on success, at the
initial state over target `"a"`. -/
theorem c9_many_termination_witness :
    (manyT (strT ['a'] (fun _ _ => ()) (fun _ _ => ())) 2
      (.ok ⟨['a'], 0, [], ()⟩) : Option (ParseStateM Unit Unit)).isSome = true :=
  c9_many_termination.1 Unit Unit (strT ['a'] (fun _ _ => ()) (fun _ _ => ()))
    (fun s2 => strT_success_advances ['a'] (by decide) _ _ s2)
    (.ok ⟨['a'], 0, [], ()⟩)

/-- C10: the token-layer `map` does not short-circuit on an error input
state: it applies the transformer of the wrapped parser to the error state
and, for a parser whose transformer propagates that error state unchanged,
returns a new ParseError at the same index and result whose error value is
the `merror` image of that state — so `map` rewrites the semantics of errors
that arose upstream of it. -/
theorem c10_map_error_input {D E : Type} (t : TransformerM D E)
    (mdata : ParseResultM D → D) (merror : ParseErrorM E → E) (e : ParseErrorM E)
    (h : t (.err e) = .err e) :
    mapT t mdata merror (.err e) = .err ⟨e.target, e.index, e.result, merror e⟩ := by
  simp [mapT, h, updateParseError, stTarget, stIndex, stResult]

/-- Witness for c10_map_error_input: the library parser `str("a")` propagates
error states unchanged, and mapping it with a merror that increments the
numeric error value rewrites the upstream error 5 to 6 at the same position. -/
theorem c10_map_error_input_witness :
    mapT (D := Nat) (E := Nat) (strT ['a'] (fun _ _ => 0) (fun _ _ => 0)) (fun r => r.data)
      (fun e => e.error + 1) (.err ⟨['b'], 0, [], (5 : Nat)⟩) =
      .err ⟨['b'], 0, [], (6 : Nat)⟩ :=
  c10_map_error_input _ _ _ _ rfl

/-- C8: algebraic laws of the singleton chain.  First part: `chain([p])`
without an action is the very transformer of `p`.  Second part: `chain([p],
a)` is pointwise equal to `map(p, s ↦ a([s.data]), id)` — the map whose data
function applies the action to the one-element data vector and whose error
function keeps the error value unchanged. -/
theorem c8_chain_singleton :
    (∀ (D E : Type) (t : TransformerM D E) (state : ParseStateM D E),
      chainNoActT [t] state = t state) ∧
    (∀ (D E : Type) (t : TransformerM D E) (action : List D → D)
        (state : ParseStateM D E),
      chainActOneT t action state =
        mapT t (fun r => action [r.data]) (fun e => e.error) state) := by
  constructor
  · intro D E t state
    rfl
  · intro D E t action state
    simp only [chainActOneT, mapT]
    cases h : t state with
    | ok r => rfl
    | err e => rfl

/-- C5: invariants of state construction.  Successful construction of a
ParseResult implies `0 ≤ index ≤ len(target)` and that the total length of
the concatenated result tokens is at most the index, and the constructed
state carries exactly the given fields; any construction attempt violating
the bounds — index above the target length, concatenated length above the
index, and in particular any negative index — throws a RangeError instead of
producing a value.  The same holds for the ParseError constructor. -/
theorem c5_constructor_invariants :
    (∀ (D : Type) (target : Str) (index : Int) (result : List Str) (data : D)
        (r : ParseResultM D),
      mkParseResult target index result data = .ok r →
        0 ≤ index ∧ index ≤ target.length ∧ (joinLen result : Int) ≤ index ∧
          r = ⟨target, index.toNat, result, data⟩) ∧
    (∀ (D : Type) (target : Str) (index : Int) (result : List Str) (data : D),
      ((target.length : Int) < index ∨ index < joinLen result ∨ index < 0) →
        ∃ msg, mkParseResult target index result data = Except.error msg) ∧
    (∀ (E : Type) (target : Str) (index : Int) (result : List Str) (error2 : E)
        (e : ParseErrorM E),
      mkParseError target index result error2 = .ok e →
        0 ≤ index ∧ index ≤ target.length ∧ (joinLen result : Int) ≤ index ∧
          e = ⟨target, index.toNat, result, error2⟩) ∧
    (∀ (E : Type) (target : Str) (index : Int) (result : List Str) (error2 : E),
      ((target.length : Int) < index ∨ index < joinLen result ∨ index < 0) →
        ∃ msg, mkParseError target index result error2 = Except.error msg) := by
  refine ⟨?_, ?_, ?_, ?_⟩
  · intro D target index result data r h
    simp only [mkParseResult] at h
    by_cases h1 : (target.length : Int) < index
    · simp [h1] at h
    · by_cases h2 : index < (joinLen result : Int)
      · simp [h1, h2] at h
      · simp only [h1, if_false, h2, Except.ok.injEq] at h
        refine ⟨by omega, by omega, by omega, h.symm⟩
  · intro D target index result data hviol
    by_cases h1 : (target.length : Int) < index
    · exact ⟨"Index specified is greater than the target length.".toList,
        by simp only [mkParseResult, if_pos h1]⟩
    · have h2 : index < (joinLen result : Int) := by omega
      exact ⟨"Result is larger than index specified.".toList,
        by simp only [mkParseResult, if_neg h1, if_pos h2]⟩
  · intro E target index result error2 e h
    simp only [mkParseError] at h
    by_cases h1 : (target.length : Int) < index
    · simp [h1] at h
    · by_cases h2 : index < (joinLen result : Int)
      · simp [h1, h2] at h
      · simp only [h1, if_false, h2, Except.ok.injEq] at h
        refine ⟨by omega, by omega, by omega, h.symm⟩
  · intro E target index result error2 hviol
    by_cases h1 : (target.length : Int) < index
    · exact ⟨"Index specified is greater than the target length.".toList,
        by simp only [mkParseError, if_pos h1]⟩
    · have h2 : index < (joinLen result : Int) := by omega
      exact ⟨"Result is larger than index specified.".toList,
        by simp only [mkParseError, if_neg h1, if_pos h2]⟩

/-- Witness for c5_constructor_invariants: the first part applied at the
successful construction over target `"ab"` with index 1 and one token `"a"`,
and the second part applied at the faulting construction with index -1. -/
theorem c5_constructor_invariants_witness :
    ((0 : Int) ≤ 1 ∧ (1 : Int) ≤ (['a', 'b'] : Str).length ∧
      (joinLen [['a']] : Int) ≤ 1 ∧
      (⟨['a', 'b'], (1 : Int).toNat, [['a']], ()⟩ : ParseResultM Unit) =
        ⟨['a', 'b'], 1, [['a']], ()⟩) ∧
    ∃ msg, mkParseResult ['a', 'b'] (-1) [] () = Except.error (ε := Str) msg := by
  constructor
  · have h := c5_constructor_invariants.1 Unit ['a', 'b'] 1 [['a']] ()
      ⟨['a', 'b'], 1, [['a']], ()⟩ (by rfl)
    exact h
  · exact c5_constructor_invariants.2.1 Unit ['a', 'b'] (-1) [] () (by right; right; decide)

/-- C3 (code behaviour at the failing input): `many1(str("a"), onEmpty)`
applied to the non-error state over target `"b"` at index 1 carrying the
already-appended token `"b"` — a state on which `str("a")` never succeeds, so
zero tokens are appended — returns that state unchanged as a success instead
of failing with the `onEmpty` production (which would be the error value 1
here): the source tests `nextState.result.length === 0` on the absolute token
list instead of comparing against the state that entered `many`. -/
theorem c3_many1_failing_input :
    many1T (strT ['a'] (fun _ _ => (0 : Nat)) (fun _ _ => 0)) (fun _ _ => 1) 5
      (.ok ⟨['b'], 1, [['b']], ()⟩) = some (.ok ⟨['b'], 1, [['b']], ()⟩) := by
  decide

theorem untilLoop_ok_spec {D E : Type} (term : TransformerM D E) (EOFError : ErrProd E)
    (start : Nat) :
    ∀ (fuel : Nat) (r : ParseResultM D) (s2 : ParseResultM D),
      start ≤ r.index →
      untilLoop term EOFError start fuel r = some (.ok s2) →
        r.index ≤ s2.index ∧ s2.target = r.target ∧ s2.data = r.data ∧
        (s2.index = r.index ∨ (r.index < r.target.length ∧ s2.index ≤ r.target.length)) ∧
        stIsError (term (.ok ⟨r.target, s2.index, r.result, r.data⟩)) = false ∧
        s2.result = (if ((r.target.take s2.index).drop start).isEmpty then r.result
          else r.result ++ [(r.target.take s2.index).drop start]) := by
  intro fuel
  induction fuel with
  | zero => intro r s2 _ h; simp [untilLoop] at h
  | succ n ih =>
    intro r s2 hstart h
    rw [untilLoop] at h
    by_cases hterm : stIsError (term (.ok r)) = false
    · rw [if_pos (by simp [hterm])] at h
      simp only [updateParseResult, stTarget, stResult, Option.some.injEq,
        ParseStateM.ok.injEq] at h
      subst h
      refine ⟨le_refl _, rfl, rfl, Or.inl rfl, hterm, ?_⟩
      simp only [jsTruthyStr]
      by_cases hemp : ((r.target.take r.index).drop start).isEmpty
      · simp [hemp]
      · simp [hemp]
    · rw [if_neg (by simpa using hterm)] at h
      by_cases hend : r.target.length ≤ r.index
      · rw [if_pos hend] at h
        simp [updateParseError] at h
      · rw [if_neg hend] at h
        have hrec := ih ⟨r.target, r.index + 1, r.result, r.data⟩ s2
          (by show start ≤ r.index + 1; omega) h
        obtain ⟨h1, h2, h3, h4, h5, h6⟩ := hrec
        have h1x : r.index + 1 ≤ s2.index := h1
        have h4x : s2.index = r.index + 1 ∨
            (r.index + 1 < r.target.length ∧ s2.index ≤ r.target.length) := h4
        have hendx : r.index < r.target.length := by omega
        refine ⟨by omega, h2, h3, ?_, h5, h6⟩
        rcases h4x with h4x | h4x
        · exact Or.inr ⟨hendx, by omega⟩
        · exact Or.inr ⟨hendx, h4x.2⟩

/-- C2 (amended): success shape of `until`.  For every non-error input state,
when `until(terminator, onEOF)` succeeds, the index of the returned state
points just before the match of the terminator (the terminator succeeds on
the state at that index with the original result list and data), target and
data are unchanged, and the result list is the original one with exactly one
token — the skipped substring — appended when at least one character was
skipped, and the unchanged original list with no token appended when the
terminator matched immediately (the zero-length substring is dropped by the
truthiness check of updateParseResult). -/
theorem c2_until_success_shape {D E : Type} (term : TransformerM D E)
    (EOFError : ErrProd E) (fuel : Nat) (r : ParseResultM D) (s2 : ParseResultM D)
    (h : untilT term EOFError fuel (.ok r) = some (.ok s2)) :
    r.index ≤ s2.index ∧ s2.target = r.target ∧ s2.data = r.data ∧
    stIsError (term (.ok ⟨r.target, s2.index, r.result, r.data⟩)) = false ∧
    s2.result = (if s2.index = r.index then r.result
      else r.result ++ [(r.target.take s2.index).drop r.index]) := by
  have hspec := untilLoop_ok_spec term EOFError r.index fuel r s2 (le_refl _) h
  obtain ⟨h1, h2, h3, h4, h5, h6⟩ := hspec
  refine ⟨h1, h2, h3, h5, ?_⟩
  rw [h6]
  by_cases heq : s2.index = r.index
  · rw [if_pos heq, if_pos]
    rw [heq]
    simp [List.isEmpty_iff, List.drop_eq_nil_iff]
  · rw [if_neg heq, if_neg]
    rcases h4 with h4 | h4
    · exact absurd h4 heq
    · have hlen : ((r.target.take s2.index).drop r.index).length =
          s2.index - r.index := by
        simp only [List.length_drop, List.length_take]
        omega
      intro hemp
      rw [List.isEmpty_iff] at hemp
      rw [hemp] at hlen
      simp at hlen
      omega

/-- C2 (counterexample): on the non-error state at index 0 over target `"a"`,
`until(str("a"), onEOF)` succeeds with the terminator matching immediately —
zero characters are skipped — yet the returned state is the input state
unchanged: its result list is the empty list, not the input list with one
zero-length token appended as the claim requires (updateParseResult drops the
falsy empty string, line 285). -/
theorem c2_until_counterexample :
    untilT (strT ['a'] (fun _ _ => ()) (fun _ _ => ())) (fun _ _ => ()) 5
        (.ok ⟨['a'], 0, [], ()⟩) = some (.ok ⟨['a'], 0, [], ()⟩) ∧
      ([] : List Str) ≠ [] ++ [([] : Str)] :=
  ⟨by decide, by decide⟩

/-- Witness for c2_until_success_shape: `until(str("c"), onEOF)` over target
`"abc"` from index 0 succeeds at index 2 having appended the one skipped
token `"ab"`. -/
theorem c2_until_success_shape_witness :
    (⟨['a', 'b', 'c'], 2, [['a', 'b']], ()⟩ : ParseResultM Unit).result =
      [] ++ [(((['a', 'b', 'c'] : Str)).take 2).drop 0] := by
  have h := c2_until_success_shape (E := Unit)
    (strT ['c'] (fun _ _ => ()) (fun _ _ => ())) (fun _ _ => ()) 9
    ⟨['a', 'b', 'c'], 0, [], ()⟩ ⟨['a', 'b', 'c'], 2, [['a', 'b']], ()⟩ (by decide)
  have h2 := h.2.2.2.2
  rw [if_neg (by decide)] at h2
  exact h2

/-- C1: deduplication of pending work on the parse stack.  In every
configuration reachable during a single run, the history of pushed
(transformer, state-identity) pairs has no duplicate — no pair is ever
enqueued twice — and whenever a symbol combinator sees a state identity not
yet in its memo (the only situation in which it pushes, lines 703-732), no
pending stack item carries the same transformer and the same state identity,
so every push happens only when no matching pending item exists.  The source
guard at line 714 is vacuous (the filtered array is always truthy), but the
memo entry created at lines 704-709 before every push makes the guarded
condition hold at each push anyway. -/
theorem c1_stack_dedup (c : SymConfig) (hreach : SymReach c) :
    c.pushed.Nodup ∧
    ∀ (i : Nat) (ident : Str), ident ∉ c.memoKeys i → (i, ident) ∉ c.stack := by
  obtain ⟨hmemo, hnodup, hsub⟩ := symInv_reach hreach
  refine ⟨hnodup, ?_⟩
  intro i ident hmem hin
  exact hmem (hmemo (i, ident) (hsub _ hin))

/-- Witness for c1_stack_dedup: the theorem applied at the initial
configuration of a run, which is reachable by definition. -/
theorem c1_stack_dedup_witness :
    symInit.pushed.Nodup ∧
    ∀ (i : Nat) (ident : Str), ident ∉ symInit.memoKeys i →
      (i, ident) ∉ symInit.stack :=
  c1_stack_dedup symInit SymReach.init

theorem le_foldr_max (l : List Nat) (a : Nat) (ha : a ∈ l) : a ≤ l.foldr max 0 := by
  induction l with
  | nil => simp at ha
  | cons x xs ih =>
    rcases List.mem_cons.mp ha with h | h
    · subst h; exact le_max_left _ _
    · exact le_trans (ih h) (le_max_right _ _)

theorem foldr_max_mem (l : List Nat) (hne : l ≠ []) : l.foldr max 0 ∈ l := by
  induction l with
  | nil => exact absurd rfl hne
  | cons x xs ih =>
    by_cases hxs : xs = []
    · subst hxs; simp
    · rcases le_total x (xs.foldr max 0) with h | h
      · have heq : List.foldr max 0 (x :: xs) = xs.foldr max 0 := by
          show max x (xs.foldr max 0) = xs.foldr max 0
          omega
        rw [heq]
        exact List.mem_cons_of_mem _ (ih hxs)
      · have heq : List.foldr max 0 (x :: xs) = x := by
          show max x (xs.foldr max 0) = x
          omega
        rw [heq]
        exact List.mem_cons_self _ _

theorem pairwise_rel_getLast {A : Type} {R : A → A → Prop} :
    ∀ (l : List A) (b : A), l.Pairwise R → l.getLast? = some b →
      ∀ a ∈ l, a = b ∨ R a b := by
  intro l
  induction l with
  | nil => intro b _ _ a ha; simp at ha
  | cons x xs ih =>
    intro b hpw hb a ha
    obtain ⟨hx, hpw2⟩ := List.pairwise_cons.mp hpw
    cases xs with
    | nil =>
      rw [List.getLast?_singleton, Option.some_inj] at hb
      rcases List.mem_cons.mp ha with ha | ha
      · exact Or.inl (ha.trans hb)
      · simp at ha
    | cons y ys =>
      have hb2 : (y :: ys).getLast? = some b := by
        rwa [List.getLast?_cons_cons] at hb
      rcases List.mem_cons.mp ha with ha | ha
      · subst ha
        exact Or.inr (hx b (List.mem_of_mem_getLast? hb2))
      · exact ih b hpw2 hb2 a ha

/-- C4: the eager-run result selection.  For every non-empty collection of
generated states, the postprocessing of SymbolParser.run returns exactly the
collected states whose index equals the maximum index over the collection,
restricted to the non-error states whenever some non-error state attains that
maximum, and otherwise equal to the whole set of (error) states at the
maximum index. -/
theorem c4_run_selection {D E : Type} (l : List (ParseStateM D E)) (hne : l ≠ []) :
    ∃ out, runPostprocess l = some out ∧
      ∀ s, s ∈ out ↔
        (s ∈ l ∧ stIndex s = (l.map stIndex).foldr max 0 ∧
          ((∃ s2 ∈ l, stIndex s2 = (l.map stIndex).foldr max 0 ∧ stIsError s2 = false) →
            stIsError s = false)) := by
  have htrans : ∀ a b c2 : ParseStateM D E,
      runLe a b = true → runLe b c2 = true → runLe a c2 = true := by
    intro a b c2 hab hbc
    simp only [runLe, decide_eq_true_eq] at *
    omega
  have htotal : ∀ a b : ParseStateM D E, (runLe a b || runLe b a) = true := by
    intro a b
    simp only [runLe, Bool.or_eq_true, decide_eq_true_eq]
    omega
  have hsorted := List.sorted_mergeSort htrans htotal l
  have hsne : l.mergeSort runLe ≠ [] := by
    intro h0
    have hlen := (List.mergeSort_perm l runLe).length_eq
    rw [h0] at hlen
    exact hne (List.eq_nil_of_length_eq_zero hlen.symm)
  obtain ⟨last, hlast⟩ := Option.isSome_iff_exists.mp (List.getLast?_isSome.mpr hsne)
  have hmem_le : ∀ s ∈ l, stIndex s ≤ (l.map stIndex).foldr max 0 := by
    intro s hs
    exact le_foldr_max _ _ (List.mem_map_of_mem _ hs)
  have hMmem : ∃ s3 ∈ l, stIndex s3 = (l.map stIndex).foldr max 0 := by
    have hmm : (l.map stIndex).foldr max 0 ∈ l.map stIndex := by
      refine foldr_max_mem _ ?_
      simpa using hne
    obtain ⟨s3, hs3, hs3e⟩ := List.mem_map.mp hmm
    exact ⟨s3, hs3, hs3e⟩
  have hlastmem : last ∈ l := List.mem_mergeSort.mp (List.mem_of_mem_getLast? hlast)
  have hlastle : ∀ s ∈ l.mergeSort runLe, stIndex s ≤ stIndex last := by
    intro s hs
    rcases pairwise_rel_getLast _ last hsorted hlast s hs with h | h
    · rw [h]
    · simpa [runLe, decide_eq_true_eq] using h
  have hlastM : stIndex last = (l.map stIndex).foldr max 0 := by
    obtain ⟨s3, hs3, hs3M⟩ := hMmem
    have h1 := hmem_le last hlastmem
    have h2 := hlastle s3 (List.mem_mergeSort.mpr hs3)
    omega
  have hrun : runPostprocess l = some
      (if 0 < ((l.mergeSort runLe).filter (fun state => stIndex last ≤ stIndex state)
          |>.filter fun state => !(stIsError state)).length then
        ((l.mergeSort runLe).filter (fun state => stIndex last ≤ stIndex state)
          |>.filter fun state => !(stIsError state))
      else (l.mergeSort runLe).filter fun state => stIndex last ≤ stIndex state) := by
    simp only [runPostprocess]
    rw [hlast]
  have hmaxmem : ∀ s, (s ∈ (l.mergeSort runLe).filter
      fun state => stIndex last ≤ stIndex state) ↔
      (s ∈ l ∧ stIndex s = (l.map stIndex).foldr max 0) := by
    intro s
    rw [List.mem_filter, List.mem_mergeSort, decide_eq_true_eq]
    constructor
    · intro ⟨hs, hle⟩
      have := hmem_le s hs
      refine ⟨hs, by omega⟩
    · intro ⟨hs, heq⟩
      exact ⟨hs, by omega⟩
  have hnemem : ∀ s, (s ∈ ((l.mergeSort runLe).filter
      (fun state => stIndex last ≤ stIndex state)
        |>.filter fun state => !(stIsError state))) ↔
      (s ∈ l ∧ stIndex s = (l.map stIndex).foldr max 0 ∧ stIsError s = false) := by
    intro s
    rw [List.mem_filter, hmaxmem s]
    simp [and_assoc]
  rw [hrun]
  by_cases hpos : 0 < ((l.mergeSort runLe).filter
      (fun state => stIndex last ≤ stIndex state)
        |>.filter fun state => !(stIsError state)).length
  · refine ⟨_, by rw [if_pos hpos], ?_⟩
    intro s
    rw [hnemem s]
    obtain ⟨w, hw⟩ := List.length_pos_iff_exists_mem.mp hpos
    rw [hnemem w] at hw
    constructor
    · intro ⟨hs, hM, herr⟩
      exact ⟨hs, hM, fun _ => herr⟩
    · intro ⟨hs, hM, himp⟩
      exact ⟨hs, hM, himp ⟨w, hw.1, hw.2.1, hw.2.2⟩⟩
  · refine ⟨_, by rw [if_neg hpos], ?_⟩
    intro s
    rw [hmaxmem s]
    have hnoerr : ¬∃ s2 ∈ l, stIndex s2 = (l.map stIndex).foldr max 0 ∧
        stIsError s2 = false := by
      intro ⟨s2, hs2, hs2M, hs2e⟩
      refine hpos (List.length_pos_iff_exists_mem.mpr ⟨s2, ?_⟩)
      rw [hnemem s2]
      exact ⟨hs2, hs2M, hs2e⟩
    constructor
    · intro ⟨hs, hM⟩
      exact ⟨hs, hM, fun hH => absurd hH hnoerr⟩
    · intro ⟨hs, hM, _⟩
      exact ⟨hs, hM⟩

/-- Witness for c4_run_selection: the selection applied to the one-element
collection holding a single non-error state, which is returned. -/
theorem c4_run_selection_witness :
    ∃ out, runPostprocess [ParseStateM.ok (E := Unit) ⟨['a'], 0, [], ()⟩] = some out ∧
      ParseStateM.ok (E := Unit) ⟨['a'], 0, [], ()⟩ ∈ out := by
  obtain ⟨out, hout, hiff⟩ :=
    c4_run_selection [ParseStateM.ok (E := Unit) ⟨['a'], 0, [], ()⟩] (by decide)
  refine ⟨out, hout, (hiff _).mpr ⟨List.mem_singleton_self _, by decide, fun _ => rfl⟩⟩

theorem mergeSort_singleton {A : Type} (le : A → A → Bool) (a : A) :
    [a].mergeSort le = [a] :=
  List.perm_singleton.mp (List.mergeSort_perm [a] le)

/-- C6 (amended): the breadth guard of the publisher.  A publisher invocation
throws the fatal breadth Error exactly when MAX_AMBIGUITY_BREADTH is a finite
value `mb` and the number of full-input-length results already retained in the
memo entry exceeds `mb`; when it is Infinity (`none` in the model) the fault
is never raised, whatever the entry holds.  The guard runs before the
incoming result is stored, so a run can retain `mb + 1` full-length results
under one entry and still finish without the fault (see
c6_breadth_counterexample): the fault fires only on a publication made to the
entry after the count already exceeds the bound. -/
theorem c6_breadth_guard {D E : Type} (maxB : Option Nat)
    (idOf : ParseStateM D E → Str) (entry : MemoEntryM D E)
    (resultState : ParseStateM D E) :
    ((∃ msg, publishStep maxB idOf entry resultState = .error msg) ↔
      (∃ mb, maxB = some mb ∧
        mb < (entry.results.filter fun p =>
          stIndex p.2 == (stTarget p.2).length).length)) ∧
    (maxB = none → ∃ out, publishStep maxB idOf entry resultState = .ok out) := by
  cases hmb : maxB with
  | none =>
    have hok : ∃ out, publishStep none idOf entry resultState = .ok out := by
      cases hres : getResult entry.results (idOf resultState) with
      | some x => exact ⟨(entry, []), by simp [publishStep, hres]⟩
      | none =>
        exact ⟨(⟨entry.results ++ [(idOf resultState, resultState)], entry.conts⟩,
          entry.conts), by simp [publishStep, hres]⟩
    refine ⟨⟨?_, ?_⟩, fun _ => hok⟩
    · intro ⟨msg, hmsg⟩
      obtain ⟨out, hout⟩ := hok
      rw [hout] at hmsg
      cases hmsg
    · intro ⟨mb, hmb2, _⟩
      cases hmb2
  | some mb =>
    by_cases hlt : mb < (entry.results.filter fun p =>
        stIndex p.2 == (stTarget p.2).length).length
    · have herr : publishStep (some mb) idOf entry resultState =
          .error "Maximum ambiguity breadth reached.".toList := by
        simp [publishStep, hlt]
      refine ⟨⟨fun _ => ⟨mb, rfl, hlt⟩, fun _ => ⟨_, herr⟩⟩, ?_⟩
      intro hnone
      cases hnone
    · have hok : ∃ out, publishStep (some mb) idOf entry resultState = .ok out := by
        cases hres : getResult entry.results (idOf resultState) with
        | some x => exact ⟨(entry, []), by simp [publishStep, hlt, hres]⟩
        | none =>
          exact ⟨(⟨entry.results ++ [(idOf resultState, resultState)], entry.conts⟩,
            entry.conts), by simp [publishStep, hlt, hres]⟩
      refine ⟨⟨?_, ?_⟩, ?_⟩
      · intro ⟨msg, hmsg⟩
        obtain ⟨out, hout⟩ := hok
        rw [hout] at hmsg
        cases hmsg
      · intro ⟨mb2, hmb2, hlt2⟩
        rw [Option.some_inj] at hmb2
        subst hmb2
        exact absurd hlt2 hlt
      · intro hnone
        cases hnone

/-- Witness for c6_breadth_guard: with bound 1 and a memo entry already
retaining two distinct full-length results over target "a", a further
publication faults with the breadth Error. -/
theorem c6_breadth_guard_witness :
    ∃ msg, publishStep (some 1) idStr
      ⟨[(idStr (.ok ⟨['a'], 1, [['a']], "x".toList⟩), .ok ⟨['a'], 1, [['a']], "x".toList⟩),
        (idStr (.ok ⟨['a'], 1, [['a']], "y".toList⟩), .ok ⟨['a'], 1, [['a']], "y".toList⟩)],
        []⟩
      (.ok ⟨['a'], 1, [['a']], "z".toList⟩) = .error msg := by
  refine ((c6_breadth_guard (some 1) idStr _ _).1).mpr ⟨1, rfl, ?_⟩
  decide

/-- C6 (counterexample): a complete eager run of the ambiguous grammar
`alternatives([toSymbol(tokX), toSymbol(tokY)])` on target "a" with
MAX_AMBIGUITY_BREADTH = 1 finishes without raising any fault, yet the memo
entry of the alternatives instance retains 2 full-input-length results —
strictly more than the bound — because the guard only fires on a publication
made after the bound is already exceeded, and here none follows. -/
theorem c6_breadth_counterexample :
    (match symGenerateM ambG idStr (some 1) 0 30 ['a'] [] 0 with
      | .ok _ => true
      | .error _ => false) = true ∧
    (match symGenerateM ambG idStr (some 1) 0 30 ['a'] [] 0 with
      | .ok m => (getEntryList m.memos (0, idStr (.ok ⟨['a'], 0, [], []⟩))).map fun e =>
          (e.results.filter fun p => stIndex p.2 == (stTarget p.2).length).length
      | .error _ => none) = some 2 ∧ 1 < 2 :=
  ⟨by decide, by decide, by decide⟩

/-- C7: promoting a token parser preserves its run.  For every token
transformer, identity getter, breadth setting, target, initial data and
index, the eager run of `toSymbol(p)` returns exactly the one-element state
array returned by the run of `p` itself, so
`toSymbol(p).run(t, d, i)[0] = p.run(t, d, i)[0]`. -/
theorem c7_toSymbol_run {D E : Type} (t : TransformerM D E)
    (idOf : ParseStateM D E → Str) (maxB : Option Nat) (target : Str) (data : D)
    (index : Nat) :
    symRunE (toSymbolG t) idOf maxB 0 12 target data index =
      .ok (tokenRun t target data index) := by
  have hpub : ∀ (ks : List ContM) (rs : ParseStateM D E),
      publishStep maxB idOf ⟨[], ks⟩ rs = .ok (⟨[(idOf rs, rs)], ks⟩, ks) := by
    intro ks rs
    cases maxB <;> simp [publishStep, getResult]
  cases h : t (.ok ⟨target, index, [], data⟩) with
  | ok r =>
    simp [symRunE, symGenerateM, drainLoop, execTask, toSymbolG, getEntryList,
      setEntryList, jsTruthyArr, hpub, h, runPostprocess, mergeSort_singleton,
      stIsError, tokenRun]
  | err e =>
    simp [symRunE, symGenerateM, drainLoop, execTask, toSymbolG, getEntryList,
      setEntryList, jsTruthyArr, hpub, h, runPostprocess, mergeSort_singleton,
      stIsError, tokenRun]
